import Mathlib

/-!
# Verification of the SmartStudy text core (`smartstudy_single.py`)

Shallow embedding of the extractive summarizer and the rule-based flashcard
generator of `smartstudy_single.py`.  Python strings are modelled as
`List Char` (with `String` wrappers at the API boundary); the model covers the
ASCII fragment of Python's Unicode-aware primitives (`str.strip`, `str.lower`,
`\s`, `\w`), which is the fragment the program's own data and documentation
exercise.  All definitions are executable.
-/

namespace SmartStudy

open List

/-- ASCII model of Python's `\s` / `str.strip()` whitespace class:
space, tab, newline, carriage return, vertical tab, form feed. -/
def isSpace (c : Char) : Bool :=
  c = ' ' || c = '\t' || c = '\n' || c = '\r' || c.toNat = 11 || c.toNat = 12

/-- The sentence-terminal punctuation characters `.`, `!`, `?` used both by the
sentence splitter's lookbehind and by `str.rstrip(".!?")`. -/
def isTerm (c : Char) : Bool :=
  c = '.' || c = '!' || c = '?'

/-- ASCII model of Python's `\w` word-character class:
letters, digits, underscore. -/
def isWordChar (c : Char) : Bool :=
  (48 ≤ c.toNat && c.toNat ≤ 57) || (65 ≤ c.toNat && c.toNat ≤ 90) ||
    c.toNat = 95 || (97 ≤ c.toNat && c.toNat ≤ 122)

/-- ASCII model of Python's `str.lower` on a single character. -/
def pyLower (c : Char) : Char :=
  if 65 ≤ c.toNat && c.toNat ≤ 90 then Char.ofNat (c.toNat + 32) else c

/-- Left strip: drop leading whitespace (`str.lstrip`). -/
def lstrip (l : List Char) : List Char := l.dropWhile isSpace

/-- Drop trailing characters satisfying `p` (models `str.rstrip(chars)`). -/
def rstripP (p : Char → Bool) : List Char → List Char
  | [] => []
  | c :: cs =>
    let r := rstripP p cs
    if r.isEmpty && p c then [] else c :: r

/-- Right strip: drop trailing whitespace (`str.rstrip`). -/
def rstrip (l : List Char) : List Char := rstripP isSpace l

/-- Model of Python `str.strip()`. -/
def strip (l : List Char) : List Char := rstrip (lstrip l)

/-- True when the option in `o` holds a sentence-terminal character; used
for the splitter's lookbehind on the previously consumed character. -/
def isTermOpt : Option Char → Bool
  | some c => isTerm c
  | none => false

/-- Model of `re.split(r'(?<=[.!?])\s+', text)`: scan the text, and at every
whitespace character whose immediately preceding character is `.`, `!` or `?`,
emit the fragment accumulated so far (held reversed in `acc`) and consume the
rest of the whitespace run (`skip` is true while the run is being consumed;
it is only ever set with an empty `acc`, so the lookbehind cannot re-fire
inside the run). -/
def splitAux : Bool → List Char → List Char → List (List Char)
  | _, acc, [] => [acc.reverse]
  | skip, acc, c :: cs =>
    if skip && isSpace c then splitAux true acc cs
    else if isSpace c && isTermOpt acc.head? then acc.reverse :: splitAux true [] cs
    else splitAux false (c :: acc) cs

/-- Model of `_tokenize_sentences` / `_sent_split` from the source (the two functions
are textually identical): strip the text, split it after sentence-terminal
punctuation followed by whitespace, strip each fragment and drop the empty
ones. -/
def sentSplitCore (l : List Char) : List (List Char) :=
  ((splitAux false [] (strip l)).map strip).filter (fun s => !s.isEmpty)

/-- Model of `_tokenize_sentences(text)` at the `String` boundary. -/
def tokenize_sentences (text : String) : List String :=
  (sentSplitCore text.data).map String.mk

/-- Scanner for `re.findall(r'\w+', s)`: `acc` holds the reversed current run
of word characters (empty when no run is open). -/
def wordRunsAux : List Char → List Char → List (List Char)
  | acc, [] => if acc.isEmpty then [] else [acc.reverse]
  | acc, c :: cs =>
    if isWordChar c then wordRunsAux (c :: acc) cs
    else if acc.isEmpty then wordRunsAux [] cs
    else acc.reverse :: wordRunsAux [] cs

/-- Maximal runs of word characters, in left-to-right order: model of
`re.findall(r'\w+', s)`. -/
def wordRuns (l : List Char) : List (List Char) := wordRunsAux [] l

/-- The fixed stopword set of the source, verbatim. -/
def STOPWORDS : List (List Char) :=
  (["a", "an", "the", "and", "is", "are", "was", "were", "in", "on", "of",
    "for", "to", "with", "by", "that", "this", "it", "as", "at", "from",
    "be", "or", "about", "into", "over", "after", "before", "under",
    "between", "during", "through", "up", "down", "out", "off", "above",
    "below", "can", "could", "should", "would", "may", "might", "shall",
    "will", "just", "not", "no", "nor", "so", "such", "than", "then",
    "too", "very"] : List String).map String.data

/-- Model of `_tokenize_words(sentence)`: lowercase the sentence, extract the word
runs, drop stopwords. -/
def tokenize_words (s : List Char) : List (List Char) :=
  (wordRuns (s.map pyLower)).filter (fun w => !(STOPWORDS.contains w))

/-- All tokens of all sentences, in order; the multiset the source's
`Counter` accumulates. -/
def allTokens (sents : List (List Char)) : List (List Char) :=
  (sents.map tokenize_words).flatten

/-- Model of `freq[w]`: global occurrence count of token `w` across the text. -/
def freq (sents : List (List Char)) (w : List Char) : Nat :=
  (allTokens sents).count w

/-- The score of one sentence: the sum, over its token occurrences, of the
global frequency of each token. -/
def score (sents : List (List Char)) (s : List Char) : Nat :=
  ((tokenize_words s).map (freq sents)).sum

/-- The `scores` association list in `defaultdict` insertion order: one entry
per sentence index that has at least one token, in ascending index order
(indices are first touched in ascending order by the scoring loop). -/
def scoresList (sents : List (List Char)) : List (Nat × Nat) :=
  (List.range sents.length).filterMap (fun i =>
    if (tokenize_words (sents.getD i [])).isEmpty then none
    else some (i, score sents (sents.getD i [])))

/-- Relation `b.2 ≤ a.2`: the descending-score ordering used by
`sorted(scores.items(), key=lambda x: x[1], reverse=True)`. -/
def scoreGe (a b : Nat × Nat) : Prop := b.2 ≤ a.2

instance : DecidableRel scoreGe := fun a b => inferInstanceAs (Decidable (b.2 ≤ a.2))

instance : IsTotal (Nat × Nat) scoreGe := ⟨fun a b => Nat.le_total b.2 a.2⟩

instance : IsTrans (Nat × Nat) scoreGe := ⟨fun _ _ _ h₁ h₂ => Nat.le_trans h₂ h₁⟩

/-- Model of `ranked`: the scored indices stably sorted by descending score.  Python's
`sorted` is a stable sort, whose output is uniquely determined by stability,
so the stable `insertionSort` models it exactly. -/
def ranked (sents : List (List Char)) : List (Nat × Nat) :=
  List.insertionSort scoreGe (scoresList sents)

/-- Model of `idx`: the indices of the top `k` ranked sentences, re-sorted ascending
(`sorted(i for i, _ in ranked[:max_sentences])`). -/
def selIdx (sents : List (List Char)) (k : Nat) : List Nat :=
  List.insertionSort (· ≤ ·) (((ranked sents).take k).map Prod.fst)

/-- Model of `" ".join(...)` on character lists. -/
def joinSpace : List (List Char) → List Char
  | [] => []
  | [s] => s
  | s :: rest => s ++ ' ' :: joinSpace rest

/-- Model of `summarize(text, max_sentences)` on character lists. -/
def summarizeCore (text : List Char) (maxSentences : Nat) : List Char :=
  let sents := sentSplitCore text
  if sents.isEmpty then []
  else if sents.length ≤ maxSentences then joinSpace sents
  else joinSpace ((selIdx sents maxSentences).map (fun i => sents.getD i []))

/-- Model of `summarize(text, max_sentences)` at the `String` boundary. -/
def summarize (text : String) (maxSentences : Nat) : String :=
  String.mk (summarizeCore text.data maxSentences)

/-! ## Flashcard generator

The two patterns `^(.*?)\s+(is|are|was|were)\s+(.*)` and `^(.*?)\s+has\s+(.*)`
(with `re.IGNORECASE`) share one shape.  `re.search` anchored at `^` with a
lazy first group resolves to: find the leftmost maximal whitespace run that is
preceded only by newline-free text and is immediately followed by one of the
verbs and then at least one whitespace character.  Group 1 is the text before
that run (`.` cannot cross a newline, so a failed run containing a newline
aborts the whole search); group 3 (resp. 2) starts after the maximal
whitespace run following the verb and extends to the first newline or the end
of the string (`.*` is greedy and does not match newlines). -/

/-- The copula verbs of the first rule, lowercased. -/
def copulaVerbs : List (List Char) :=
  [['i', 's'], ['a', 'r', 'e'], ['w', 'a', 's'], ['w', 'e', 'r', 'e']]

/-- The verb of the possession rule. -/
def hasVerbs : List (List Char) := [['h', 'a', 's']]

/-- Does `t` start with verb `w` (case-insensitively) immediately followed by
a whitespace character? -/
def verbCheck (t : List Char) (w : List Char) : Bool :=
  decide ((t.take w.length).map pyLower = w) &&
    (match t.drop w.length with
     | c :: _ => isSpace c
     | [] => false)

/-- Try the verb alternation at the start of `t`; on success return the
remainder of `t` after the verb (which starts with a whitespace character). -/
def matchVerb (vs : List (List Char)) (t : List Char) : Option (List Char) :=
  match vs.find? (verbCheck t) with
  | some w => some (t.drop w.length)
  | none => none

/-- The scanning core of `re.search(r'^(.*?)\s+(verb)\s+(.*)', s)`: `acc`
holds the reversed candidate group 1.  At each whitespace run, try the verb
alternation right after the run; on failure, abort if the run contains a
newline (group 1 cannot cross one), otherwise continue after the run. -/
def reSearchAux (vs : List (List Char)) : List Char → List Char → Option (List Char × List Char)
  | _, [] => none
  | acc, c :: cs =>
    if isSpace c then
      match matchVerb vs (cs.dropWhile isSpace) with
      | some after => some (acc.reverse, after)
      | none => if c = '\n' then none else reSearchAux vs (c :: acc) cs
    else reSearchAux vs (c :: acc) cs

/-- Run the pattern against `s` from the start. -/
def reSearch (vs : List (List Char)) (s : List Char) : Option (List Char × List Char) :=
  reSearchAux vs [] s

/-- A whitespace position at which the verb pattern fires: the position holds
a whitespace character and, after skipping the whitespace run, one of the
verbs follows with a whitespace character after it. -/
def hitB (vs : List (List Char)) : List Char → Bool
  | [] => false
  | c :: cs => isSpace c && (matchVerb vs (cs.dropWhile isSpace)).isSome

/-- No position strictly inside `pre` (viewed as the prefix of `pre ++ tail`)
is a hit: the occurrence starting at `pre.length` is the earliest one. -/
def noEarlierHit (vs : List (List Char)) (pre tail : List Char) : Bool :=
  pre.tails.all (fun b => b.isEmpty || !hitB vs (b ++ tail))

/-- Given the remainder after the verb (which starts with whitespace), the
text matched by the final greedy `(.*)`: skip the maximal whitespace run, then
take everything up to the first newline. -/
def lastGroup (after : List Char) : List Char :=
  (after.dropWhile isSpace).takeWhile (fun c => decide (c ≠ '\n'))

/-- Scanner for Python `s.split()` (no separator): `acc` holds the reversed
current run of non-whitespace characters. -/
def pySplitAux : List Char → List Char → List (List Char)
  | acc, [] => if acc.isEmpty then [] else [acc.reverse]
  | acc, c :: cs =>
    if isSpace c then
      if acc.isEmpty then pySplitAux [] cs else acc.reverse :: pySplitAux [] cs
    else pySplitAux (c :: acc) cs

/-- Model of Python `s.split()` (no separator): the maximal runs of
non-whitespace characters, in order. -/
def pySplit (l : List Char) : List (List Char) := pySplitAux [] l

/-- Model of `_qa_from_sentence(sentence)` on character lists: the ordered rule
cascade — copula pattern, possession pattern, long-sentence fallback,
short-sentence fallback. -/
def qaCore (sentence : List Char) : List Char × List Char :=
  match reSearch copulaVerbs (strip sentence) with
  | some (g1, after) =>
      ("What is ".data ++ strip g1 ++ ['?'], rstripP isTerm (strip (lastGroup after)))
  | none =>
    match reSearch hasVerbs (strip sentence) with
    | some (g1, after) =>
        ("What does ".data ++ strip g1 ++ " have?".data,
         rstripP isTerm (strip (lastGroup after)))
    | none =>
      if 6 < (pySplit (strip sentence)).length then
        ("What does this say about: ".data ++
          joinSpace ((pySplit (strip sentence)).take 6) ++ ['…'], strip sentence)
      else
        ("Question: ".data ++ (strip sentence).take 40 ++ "...".data, strip sentence)

/-- Model of `_qa_from_sentence` at the `String` boundary. -/
def qa_from_sentence (sentence : String) : String × String :=
  ((qaCore sentence.data).map String.mk String.mk : String × String)

/-- The card-accumulating loop of `generate_flashcards`: append one card per
sentence, stop as soon as the cap is reached. -/
def fcLoop (maxCards : Nat) : List (List Char) → List (List Char × List Char) →
    List (List Char × List Char)
  | [], cards => cards.reverse
  | s :: rest, cards =>
    let cards' := qaCore s :: cards
    if maxCards ≤ cards'.length then cards'.reverse else fcLoop maxCards rest cards'

/-- Model of `generate_flashcards(text, max_cards)`. -/
def generate_flashcards (text : String) (maxCards : Nat) : List (String × String) :=
  (fcLoop maxCards (sentSplitCore text.data) []).map
    (fun qa => (String.mk qa.1, String.mk qa.2))

/-- Adjacent-character relation satisfied inside a split fragment: a
sentence-terminal character is never followed by whitespace (such a pair is
exactly a split point of the sentence splitter). -/
def fragR (a b : Char) : Prop := isTerm a = true → isSpace b = false

/-- The list ends with a sentence-terminal punctuation character. -/
def EndsTerm (l : List Char) : Prop := ∃ c, l.getLast? = some c ∧ isTerm c = true

/-! ## Character lemmas -/

theorem isTerm_not_space {c : Char} (h : isTerm c = true) : isSpace c = false := by
  simp only [isTerm, Bool.or_eq_true, decide_eq_true_eq] at h
  rcases h with (h | h) | h <;> subst h <;> decide

theorem space_toNat_lt {c : Char} (h : isSpace c = true) : c.toNat < 65 := by
  simp only [isSpace, Bool.or_eq_true, decide_eq_true_eq] at h
  rcases h with ((((h | h) | h) | h) | h) | h
  · subst h; decide
  · subst h; decide
  · subst h; decide
  · subst h; decide
  · omega
  · omega

theorem pyLower_of_space {c : Char} (h : isSpace c = true) : pyLower c = c := by
  have hlt : c.toNat < 65 := space_toNat_lt h
  unfold pyLower
  have hf : (65 ≤ c.toNat && c.toNat ≤ 90) = false := by
    simp only [Bool.and_eq_false_iff, decide_eq_false_iff_not]
    left; omega
  simp [hf]

theorem toNat_char_ofNat {n : Nat} (h : n < 55296) : (Char.ofNat n).toNat = n := by
  have hv : n.isValidChar := Or.inl h
  unfold Char.ofNat
  rw [dif_pos hv]
  rfl

theorem isWordChar_pyLower (c : Char) : isWordChar (pyLower c) = isWordChar c := by
  unfold pyLower
  by_cases h : (65 ≤ c.toNat && c.toNat ≤ 90) = true
  · simp only [h, if_true]
    simp only [Bool.and_eq_true, decide_eq_true_eq] at h
    have h32 : (Char.ofNat (c.toNat + 32)).toNat = c.toNat + 32 :=
      toNat_char_ofNat (by omega)
    rw [Bool.eq_iff_iff]
    simp only [isWordChar, h32, Bool.or_eq_true, Bool.and_eq_true, decide_eq_true_eq]
    omega
  · simp [h]

/-! ## Strip lemmas -/

theorem rstripP_cons (p : Char → Bool) (c : Char) (cs : List Char) :
    rstripP p (c :: cs) =
      if ((rstripP p cs).isEmpty && p c) = true then [] else c :: rstripP p cs := by
  simp [rstripP]

theorem rstripP_head? (p : Char → Bool) :
    ∀ l : List Char, rstripP p l = [] ∨ (rstripP p l).head? = l.head? := by
  intro l
  cases l with
  | nil => exact Or.inl rfl
  | cons c cs =>
    rw [rstripP_cons]
    by_cases h : ((rstripP p cs).isEmpty && p c) = true
    · exact Or.inl (by simp [h])
    · exact Or.inr (by simp [h])

theorem rstripP_getLast?_not (p : Char → Bool) :
    ∀ l c, (rstripP p l).getLast? = some c → p c = false := by
  intro l
  induction l with
  | nil => intro c h; simp [rstripP] at h
  | cons a as ih =>
    intro c h
    rw [rstripP_cons] at h
    by_cases hc : ((rstripP p as).isEmpty && p a) = true
    · rw [if_pos hc] at h
      simp at h
    · rw [if_neg hc] at h
      cases hr : rstripP p as with
      | nil =>
        rw [hr] at h
        rw [List.getLast?_singleton] at h
        cases h
        simp only [Bool.and_eq_true, not_and] at hc
        cases hb : p a with
        | false => exact rfl
        | true => exact absurd hb (hc (by simp [hr]))
      | cons b bs =>
        rw [hr, List.getLast?_cons_cons] at h
        exact ih c (hr ▸ h)

theorem rstripP_eq_self_of (p : Char → Bool) :
    ∀ l : List Char, (∀ c, l.getLast? = some c → p c = false) → rstripP p l = l := by
  intro l
  induction l with
  | nil => intro _; rfl
  | cons a as ih =>
    intro h
    rw [rstripP_cons]
    cases as with
    | nil =>
      have hp : p a = false := h a (List.getLast?_singleton a)
      simp [rstripP, hp]
    | cons b bs =>
      have hr : rstripP p (b :: bs) = b :: bs :=
        ih (fun c hc => h c (by rw [List.getLast?_cons_cons]; exact hc))
      rw [hr]
      simp

theorem strip_head?_not {l : List Char} {c : Char} (h : (strip l).head? = some c) :
    isSpace c = false := by
  unfold strip rstrip at h
  rcases rstripP_head? isSpace (lstrip l) with h0 | h0
  · rw [h0] at h; simp at h
  · rw [h0] at h
    have := List.head?_dropWhile_not isSpace l
    unfold lstrip at h
    rw [h] at this
    exact this

theorem strip_getLast?_not {l : List Char} {c : Char} (h : (strip l).getLast? = some c) :
    isSpace c = false :=
  rstripP_getLast?_not isSpace (lstrip l) c h

theorem lstrip_eq_self_of {l : List Char}
    (h : ∀ c, l.head? = some c → isSpace c = false) : lstrip l = l := by
  cases l with
  | nil => rfl
  | cons a as =>
    have := h a rfl
    simp [lstrip, List.dropWhile_cons, this]

theorem strip_eq_self_of {l : List Char}
    (h1 : ∀ c, l.head? = some c → isSpace c = false)
    (h2 : ∀ c, l.getLast? = some c → isSpace c = false) : strip l = l := by
  unfold strip
  rw [lstrip_eq_self_of h1]
  exact rstripP_eq_self_of isSpace l h2

theorem strip_idem (l : List Char) : strip (strip l) = strip l :=
  strip_eq_self_of (fun _ h => strip_head?_not h) (fun _ h => strip_getLast?_not h)

theorem strip_eq_nil_of_space {l : List Char} (h : ∀ c ∈ l, isSpace c = true) :
    strip l = [] := by
  unfold strip
  have : lstrip l = [] := List.dropWhile_eq_nil_iff.mpr h
  rw [this]
  rfl

theorem lstrip_getLast? {l : List Char} (h : lstrip l ≠ []) :
    (lstrip l).getLast? = l.getLast? := by
  obtain ⟨t, ht⟩ := List.dropWhile_suffix (l := l) isSpace
  unfold lstrip
  conv_rhs => rw [← ht]
  rw [List.getLast?_append]
  cases hg : (List.dropWhile isSpace l).getLast? with
  | none => exact absurd (List.getLast?_eq_none_iff.mp hg) h
  | some x => rfl

theorem strip_getLast?_of_not_space {l : List Char} {c : Char}
    (h : l.getLast? = some c) (hc : isSpace c = false) :
    (strip l).getLast? = some c := by
  have hne : lstrip l ≠ [] := by
    intro h0
    have hall := List.dropWhile_eq_nil_iff.mp h0
    have hm : c ∈ l := List.mem_of_mem_getLast? (by rw [h]; rfl)
    rw [hall c hm] at hc
    cases hc
  have hg : (lstrip l).getLast? = some c := (lstrip_getLast? hne).trans h
  unfold strip rstrip
  rw [rstripP_eq_self_of isSpace (lstrip l) ?_]
  · exact hg
  · intro d hd
    rw [hg] at hd
    cases hd
    exact hc

/-! ## Degenerate inputs and the fast path -/

theorem sentSplitCore_nil : sentSplitCore [] = [] := rfl

theorem sentSplitCore_space {l : List Char} (h : ∀ c ∈ l, isSpace c = true) :
    sentSplitCore l = [] := by
  unfold sentSplitCore
  rw [strip_eq_nil_of_space h]
  rfl

theorem summarizeCore_space {l : List Char} (h : ∀ c ∈ l, isSpace c = true) (k : Nat) :
    summarizeCore l k = [] := by
  unfold summarizeCore
  rw [sentSplitCore_space h]
  rfl

theorem fcCore_space {l : List Char} (h : ∀ c ∈ l, isSpace c = true) (mc : Nat) :
    fcLoop mc (sentSplitCore l) [] = [] := by
  rw [sentSplitCore_space h]
  rfl

theorem summarizeCore_zero (l : List Char) : summarizeCore l 0 = [] := by
  unfold summarizeCore
  by_cases h : (sentSplitCore l).isEmpty = true
  · simp [h]
  · have hne : ¬((sentSplitCore l).length ≤ 0) := by
      intro hlen
      exact h (List.isEmpty_iff.mpr (List.length_eq_zero.mp (Nat.le_zero.mp hlen)))
    simp only [h, if_false, hne]
    unfold selIdx
    simp [joinSpace]

theorem summarizeCore_small {l : List Char} {k : Nat}
    (h : (sentSplitCore l).length ≤ k) :
    summarizeCore l k = joinSpace (sentSplitCore l) := by
  unfold summarizeCore
  by_cases he : (sentSplitCore l).isEmpty = true
  · rw [List.isEmpty_iff.mp he]
    simp [joinSpace]
  · simp [he, h]

/-! ## The flashcard loop -/

theorem fcLoop_eq (mc : Nat) :
    ∀ (ss : List (List Char)) (cards : List (List Char × List Char)),
      cards.length < mc →
      fcLoop mc ss cards = cards.reverse ++ (ss.take (mc - cards.length)).map qaCore := by
  intro ss
  induction ss with
  | nil => intro cards _; simp [fcLoop]
  | cons s rest ih =>
    intro cards hlt
    show (if mc ≤ (qaCore s :: cards).length then (qaCore s :: cards).reverse
          else fcLoop mc rest (qaCore s :: cards)) = _
    by_cases hstop : mc ≤ (qaCore s :: cards).length
    · rw [if_pos hstop]
      have hmc : mc - cards.length = 1 := by
        simp only [List.length_cons] at hstop
        omega
      rw [hmc]
      simp
    · rw [if_neg hstop]
      simp only [List.length_cons] at hstop
      rw [ih (qaCore s :: cards) (by simp only [List.length_cons]; omega)]
      have hmc : mc - cards.length = (mc - (cards.length + 1)) + 1 := by omega
      rw [hmc, List.take_succ_cons]
      simp

theorem generate_flashcards_eq {C : Nat} (hC : 0 < C) (t : String) :
    generate_flashcards t C =
      ((sentSplitCore t.data).take C).map
        (fun s => (String.mk (qaCore s).1, String.mk (qaCore s).2)) := by
  unfold generate_flashcards
  rw [fcLoop_eq C (sentSplitCore t.data) [] (by simpa using hC)]
  simp only [List.nil_append, List.reverse_nil, Nat.sub_zero, List.map_map, List.map_take]
  rfl

theorem generate_flashcards_length {C : Nat} (hC : 0 < C) (t : String) :
    (generate_flashcards t C).length = min (sentSplitCore t.data).length C := by
  rw [generate_flashcards_eq hC]
  simp [Nat.min_comm]

/-! ## Word tokenizing: lowercasing commutes with run extraction -/

theorem wordRunsAux_nil (acc : List Char) :
    wordRunsAux acc [] = if acc.isEmpty then [] else [acc.reverse] := rfl

theorem wordRunsAux_cons (acc : List Char) (c : Char) (cs : List Char) :
    wordRunsAux acc (c :: cs) =
      if isWordChar c then wordRunsAux (c :: acc) cs
      else if acc.isEmpty then wordRunsAux [] cs
      else acc.reverse :: wordRunsAux [] cs := rfl

theorem wordRunsAux_lower :
    ∀ (l acc : List Char),
      wordRunsAux (acc.map pyLower) (l.map pyLower) =
        (wordRunsAux acc l).map (List.map pyLower) := by
  intro l
  induction l with
  | nil =>
    intro acc
    rw [List.map_nil, wordRunsAux_nil, wordRunsAux_nil]
    cases acc with
    | nil => rfl
    | cons a as => simp [List.map_reverse]
  | cons c cs ih =>
    intro acc
    rw [List.map_cons, wordRunsAux_cons, wordRunsAux_cons, isWordChar_pyLower]
    by_cases hw : isWordChar c = true
    · rw [if_pos hw, if_pos hw]
      exact (by simpa using ih (c :: acc))
    · rw [if_neg hw, if_neg hw]
      cases acc with
      | nil => simpa using ih []
      | cons a as =>
        have hrec : wordRunsAux [] (cs.map pyLower) =
            (wordRunsAux [] cs).map (List.map pyLower) := by simpa using ih []
        simp [hrec, List.map_reverse]

theorem tokenize_words_spec (s : List Char) :
    tokenize_words s =
      ((wordRuns s).map (List.map pyLower)).filter (fun w => !(STOPWORDS.contains w)) := by
  unfold tokenize_words wordRuns
  rw [show wordRunsAux [] (s.map pyLower) =
        wordRunsAux (([] : List Char).map pyLower) (s.map pyLower) from rfl]
  rw [wordRunsAux_lower s []]

/-! ## The summarizer's ranking and selection -/

theorem scoresList_map_fst (sents : List (List Char)) :
    (scoresList sents).map Prod.fst =
      (List.range sents.length).filter
        (fun i => !(tokenize_words (sents.getD i [])).isEmpty) := by
  unfold scoresList
  generalize List.range sents.length = l
  induction l with
  | nil => rfl
  | cons a as ih =>
    rw [List.filterMap_cons, List.filter_cons]
    by_cases h : (tokenize_words (sents.getD a [])).isEmpty = true
    · rw [h]
      simpa using ih
    · rw [eq_false_of_ne_true h]
      simpa using ih

theorem scoresList_fst_nodup (sents : List (List Char)) :
    ((scoresList sents).map Prod.fst).Nodup := by
  rw [scoresList_map_fst]
  exact (List.nodup_range _).filter _

theorem mem_scoresList_fst_lt {sents : List (List Char)} {i : Nat}
    (h : i ∈ (scoresList sents).map Prod.fst) : i < sents.length := by
  rw [scoresList_map_fst] at h
  exact List.mem_range.mp (List.mem_filter.mp h).1

theorem ranked_perm (sents : List (List Char)) :
    List.Perm (ranked sents) (scoresList sents) :=
  List.perm_insertionSort _ _

theorem selIdx_perm (sents : List (List Char)) (k : Nat) :
    List.Perm (selIdx sents k) (((ranked sents).take k).map Prod.fst) :=
  List.perm_insertionSort _ _

theorem selIdx_length (sents : List (List Char)) (k : Nat) :
    (selIdx sents k).length = min k (scoresList sents).length := by
  rw [(selIdx_perm sents k).length_eq, List.length_map, List.length_take,
    (ranked_perm sents).length_eq]

theorem selIdx_nodup (sents : List (List Char)) (k : Nat) : (selIdx sents k).Nodup := by
  rw [(selIdx_perm sents k).nodup_iff]
  have h1 : ((ranked sents).map Prod.fst).Nodup :=
    ((ranked_perm sents).map Prod.fst).nodup_iff.mpr (scoresList_fst_nodup sents)
  have h2 : ((ranked sents).take k).map Prod.fst <+ (ranked sents).map Prod.fst :=
    (List.take_sublist _ _).map _
  exact h2.nodup h1

theorem selIdx_sorted_le (sents : List (List Char)) (k : Nat) :
    (selIdx sents k).Sorted (· ≤ ·) :=
  List.sorted_insertionSort _ _

theorem selIdx_sorted_lt (sents : List (List Char)) (k : Nat) :
    (selIdx sents k).Sorted (· < ·) :=
  ((selIdx_sorted_le sents k).and (selIdx_nodup sents k)).imp
    (fun h => Nat.lt_of_le_of_ne h.1 h.2)

theorem selIdx_mem_lt {sents : List (List Char)} {k i : Nat}
    (h : i ∈ selIdx sents k) : i < sents.length := by
  have h1 := (selIdx_perm sents k).mem_iff.mp h
  have h2 : i ∈ (ranked sents).map Prod.fst :=
    (((List.take_sublist k _).map Prod.fst).subset) h1
  have h3 : i ∈ (scoresList sents).map Prod.fst :=
    ((ranked_perm sents).map Prod.fst).mem_iff.mp h2
  exact mem_scoresList_fst_lt h3

theorem map_getD_sublist {α : Type} (d : α) :
    ∀ (l : List α) (idx : List Nat), idx.Sorted (· < ·) → (∀ i ∈ idx, i < l.length) →
      idx.map (fun i => l.getD i d) <+ l := by
  intro l
  induction l with
  | nil =>
    intro idx _ hb
    cases idx with
    | nil => exact List.nil_sublist _
    | cons i is => exact absurd (hb i (List.mem_cons_self i is)) (by simp)
  | cons x xs ih =>
    intro idx hs hb
    cases idx with
    | nil => exact List.nil_sublist _
    | cons i is =>
      have hs' : is.Sorted (· < ·) := (List.sorted_cons.mp hs).2
      have hhead : ∀ j ∈ is, i < j := (List.sorted_cons.mp hs).1
      cases i with
      | zero =>
        have hmap : is.map (fun j => (x :: xs).getD j d) =
            (is.map (fun j => j - 1)).map (fun j => xs.getD j d) := by
          rw [List.map_map]
          apply List.map_congr_left
          intro j hj
          have h1 : 1 ≤ j := hhead j hj
          show (x :: xs).getD j d = xs.getD (j - 1) d
          rw [show j = (j - 1) + 1 by omega, List.getD_cons_succ]
          simp
        have hsub : (is.map (fun j => j - 1)).map (fun j => xs.getD j d) <+ xs := by
          apply ih
          · show List.Pairwise (· < ·) (is.map (fun j => j - 1))
            rw [List.pairwise_map]
            apply hs'.imp_of_mem
            intro a b ha hb' hlt
            have := hhead a ha
            omega
          · intro j hj
            obtain ⟨j', hj', rfl⟩ := List.mem_map.mp hj
            have := hb j' (List.mem_cons_of_mem _ hj')
            have := hhead j' hj'
            simp only [List.length_cons] at *
            omega
        simp only [List.map_cons, List.getD_cons_zero, hmap]
        exact List.Sublist.cons₂ x hsub
      | succ i' =>
        have hall : ∀ j ∈ ((i' + 1) :: is), 1 ≤ j := by
          intro j hj
          rcases List.mem_cons.mp hj with rfl | hj
          · omega
          · have := hhead j hj; omega
        have hmap : ((i' + 1) :: is).map (fun j => (x :: xs).getD j d) =
            (((i' + 1) :: is).map (fun j => j - 1)).map (fun j => xs.getD j d) := by
          rw [List.map_map]
          apply List.map_congr_left
          intro j hj
          have h1 : 1 ≤ j := hall j hj
          show (x :: xs).getD j d = xs.getD (j - 1) d
          rw [show j = (j - 1) + 1 by omega, List.getD_cons_succ]
          simp
        have hsub : (((i' + 1) :: is).map (fun j => j - 1)).map (fun j => xs.getD j d) <+ xs := by
          apply ih
          · show List.Pairwise (· < ·) (((i' + 1) :: is).map (fun j => j - 1))
            rw [List.pairwise_map]
            apply hs.imp_of_mem
            intro a b ha hb' hlt
            have := hall a ha
            omega
          · intro j hj
            obtain ⟨j', hj', rfl⟩ := List.mem_map.mp hj
            have := hb j' hj'
            have := hall j' hj'
            simp only [List.length_cons] at *
            omega
        rw [hmap]
        exact List.Sublist.cons x hsub

theorem selIdx_map_sublist (sents : List (List Char)) (k : Nat) :
    (selIdx sents k).map (fun i => sents.getD i []) <+ sents :=
  map_getD_sublist [] sents (selIdx sents k) (selIdx_sorted_lt sents k)
    (fun _ h => selIdx_mem_lt h)

theorem summarizeCore_main {l : List Char} {k : Nat}
    (h : k < (sentSplitCore l).length) :
    summarizeCore l k =
      joinSpace ((selIdx (sentSplitCore l) k).map (fun i => (sentSplitCore l).getD i [])) := by
  unfold summarizeCore
  have hne : (sentSplitCore l).isEmpty = false := by
    cases hh : sentSplitCore l with
    | nil => rw [hh] at h; simp at h
    | cons a as => rfl
  simp [hne, Nat.not_le.mpr h]

/-! ## Splitter invariants: every emitted fragment is free of internal split
points, ends in terminal punctuation unless it is the last fragment, and ends
in a non-whitespace character whenever the input does. -/

theorem band_true_iff {a b : Bool} : (a && b) = true ↔ a = true ∧ b = true := by
  cases a <;> cases b <;> simp

theorem splitAux_nil (sk : Bool) (acc : List Char) :
    splitAux sk acc [] = [acc.reverse] := rfl

theorem splitAux_cons (sk : Bool) (acc : List Char) (c : Char) (cs : List Char) :
    splitAux sk acc (c :: cs) =
      if (sk && isSpace c) = true then splitAux true acc cs
      else if (isSpace c && isTermOpt acc.head?) = true then
        acc.reverse :: splitAux true [] cs
      else splitAux false (c :: acc) cs := rfl

theorem splitAux_ne_nil : ∀ (l : List Char) (sk : Bool) (acc : List Char),
    splitAux sk acc l ≠ [] := by
  intro l
  induction l with
  | nil => intro sk acc; simp [splitAux_nil]
  | cons c cs ih =>
    intro sk acc
    rw [splitAux_cons]
    by_cases h1 : (sk && isSpace c) = true
    · rw [if_pos h1]; exact ih true acc
    · rw [if_neg h1]
      by_cases h2 : (isSpace c && isTermOpt acc.head?) = true
      · rw [if_pos h2]; simp
      · rw [if_neg h2]; exact ih false (c :: acc)

theorem fragR_of_not_split {acc : List Char} {c : Char}
    (h : ¬(isSpace c && isTermOpt acc.head?) = true) :
    ∀ a, acc.head? = some a → fragR a c := by
  intro a ha ht
  cases hsp : isSpace c with
  | false => rfl
  | true =>
    exfalso
    apply h
    rw [hsp, ha]
    show (true && isTerm a) = true
    rw [ht]
    rfl

theorem chain'_reverse_snoc {acc : List Char} {c : Char}
    (h : List.Chain' fragR acc.reverse)
    (hR : ∀ a, acc.head? = some a → fragR a c) :
    List.Chain' fragR ((c :: acc).reverse) := by
  rw [List.reverse_cons]
  rw [List.chain'_append]
  refine ⟨h, List.chain'_singleton c, ?_⟩
  intro x hx y hy
  rw [List.getLast?_reverse] at hx
  cases hy
  exact hR x hx

theorem splitAux_chain : ∀ (l : List Char) (sk : Bool) (acc : List Char),
    List.Chain' fragR acc.reverse →
    ∀ f ∈ splitAux sk acc l, List.Chain' fragR f := by
  intro l
  induction l with
  | nil =>
    intro sk acc hc f hf
    rw [splitAux_nil] at hf
    rcases List.mem_singleton.mp hf with rfl
    exact hc
  | cons c cs ih =>
    intro sk acc hc f hf
    rw [splitAux_cons] at hf
    by_cases h1 : (sk && isSpace c) = true
    · rw [if_pos h1] at hf
      exact ih true acc hc f hf
    · rw [if_neg h1] at hf
      by_cases h2 : (isSpace c && isTermOpt acc.head?) = true
      · rw [if_pos h2] at hf
        rcases List.mem_cons.mp hf with rfl | hf
        · exact hc
        · exact ih true [] List.chain'_nil f hf
      · rw [if_neg h2] at hf
        exact ih false (c :: acc) (chain'_reverse_snoc hc (fragR_of_not_split h2)) f hf

theorem splitAux_dropLast_term : ∀ (l : List Char) (sk : Bool) (acc : List Char),
    ∀ f ∈ (splitAux sk acc l).dropLast, EndsTerm f := by
  intro l
  induction l with
  | nil => intro sk acc f hf; rw [splitAux_nil] at hf; simp at hf
  | cons c cs ih =>
    intro sk acc f hf
    rw [splitAux_cons] at hf
    by_cases h1 : (sk && isSpace c) = true
    · rw [if_pos h1] at hf
      exact ih true acc f hf
    · rw [if_neg h1] at hf
      by_cases h2 : (isSpace c && isTermOpt acc.head?) = true
      · rw [if_pos h2] at hf
        rw [List.dropLast_cons_of_ne_nil (splitAux_ne_nil cs true [])] at hf
        rcases List.mem_cons.mp hf with rfl | hf
        · have hterm : isTermOpt acc.head? = true := (band_true_iff.mp h2).2
          cases hacc : acc.head? with
          | none => rw [hacc] at hterm; cases hterm
          | some a =>
            rw [hacc] at hterm
            refine ⟨a, ?_, hterm⟩
            rw [List.getLast?_reverse, hacc]
        · exact ih true [] f hf
      · rw [if_neg h2] at hf
        exact ih false (c :: acc) f hf

theorem getLast?_append_right {x y : List Char} (hy : y ≠ []) :
    (x ++ y).getLast? = y.getLast? := by
  rw [List.getLast?_append]
  cases hg : y.getLast? with
  | none => exact absurd (List.getLast?_eq_none_iff.mp hg) hy
  | some a => rfl

theorem getLast?_cons_of_ne_nil {l : List Char} (a : Char) (h : l ≠ []) :
    (a :: l).getLast? = l.getLast? := by
  rw [show a :: l = [a] ++ l from rfl]
  exact getLast?_append_right h

theorem splitAux_last_ne : ∀ (l : List Char) (sk : Bool) (acc : List Char) (c₀ : Char),
    (acc.reverse ++ l).getLast? = some c₀ → isSpace c₀ = false →
    ∀ f ∈ splitAux sk acc l, ∃ d, f.getLast? = some d ∧ isSpace d = false := by
  intro l
  induction l with
  | nil =>
    intro sk acc c₀ hg hns f hf
    rw [splitAux_nil] at hf
    rcases List.mem_singleton.mp hf with rfl
    rw [List.append_nil] at hg
    exact ⟨c₀, hg, hns⟩
  | cons c cs ih =>
    intro sk acc c₀ hg hns f hf
    rw [splitAux_cons] at hf
    have hcs : cs ≠ [] → ((acc' : List Char) → (acc'.reverse ++ cs).getLast? = some c₀) := by
      intro hne acc'
      have h1 : (acc.reverse ++ c :: cs).getLast? = cs.getLast? := by
        rw [getLast?_append_right (by simp), getLast?_cons_of_ne_nil c hne]
      rw [getLast?_append_right hne]
      rw [h1] at hg
      exact hg
    have hcnil : cs = [] → c₀ = c := by
      intro hnil
      rw [hnil] at hg
      rw [getLast?_append_right (by simp), List.getLast?_singleton] at hg
      cases hg
      rfl
    by_cases h1 : (sk && isSpace c) = true
    · rw [if_pos h1] at hf
      cases hcs' : cs with
      | nil =>
        exfalso
        have := hcnil hcs'
        subst this
        rw [(band_true_iff.mp h1).2] at hns
        cases hns
      | cons d ds =>
        exact ih true acc c₀ (hcs' ▸ hcs (by simp [hcs']) acc) hns f hf
    · rw [if_neg h1] at hf
      by_cases h2 : (isSpace c && isTermOpt acc.head?) = true
      · rw [if_pos h2] at hf
        rcases List.mem_cons.mp hf with rfl | hf
        · have hterm : isTermOpt acc.head? = true := (band_true_iff.mp h2).2
          cases hacc : acc.head? with
          | none => rw [hacc] at hterm; cases hterm
          | some a =>
            rw [hacc] at hterm
            exact ⟨a, by rw [List.getLast?_reverse, hacc], isTerm_not_space hterm⟩
        · cases hcs' : cs with
          | nil =>
            exfalso
            have := hcnil hcs'
            subst this
            rw [(band_true_iff.mp h2).1] at hns
            cases hns
          | cons d ds =>
            exact ih true [] c₀ (hcs' ▸ hcs (by simp [hcs']) []) hns f hf
      · rw [if_neg h2] at hf
        have hg' : ((c :: acc).reverse ++ cs).getLast? = some c₀ := by
          rw [List.reverse_cons, List.append_assoc]
          exact hg
        exact ih false (c :: acc) c₀ hg' hns f hf

theorem splitAux_no_split : ∀ (l acc : List Char),
    List.Chain' fragR (acc.reverse ++ l) →
    splitAux false acc l = [acc.reverse ++ l] := by
  intro l
  induction l with
  | nil => intro acc _; rw [splitAux_nil, List.append_nil]
  | cons c cs ih =>
    intro acc hc
    rw [splitAux_cons]
    have hb : ∀ x ∈ acc.reverse.getLast?, ∀ y ∈ (c :: cs).head?, fragR x y :=
      (List.chain'_append.mp hc).2.2
    have h2 : ¬(isSpace c && isTermOpt acc.head?) = true := by
      intro h
      rcases band_true_iff.mp h with ⟨hsp, hterm⟩
      cases hacc : acc.head? with
      | none => rw [hacc] at hterm; cases hterm
      | some a =>
        rw [hacc] at hterm
        have := hb a (by rw [List.getLast?_reverse, hacc]; rfl) c rfl hterm
        rw [hsp] at this
        cases this
    rw [if_neg (by simp), if_neg h2]
    have hc' : List.Chain' fragR ((c :: acc).reverse ++ cs) := by
      rw [List.reverse_cons, List.append_assoc]
      exact hc
    rw [ih (c :: acc) hc', List.reverse_cons, List.append_assoc]
    rfl

theorem splitAux_skip_head {l : List Char}
    (h : ∀ c, l.head? = some c → isSpace c = false) :
    splitAux true [] l = splitAux false [] l := by
  cases l with
  | nil => rfl
  | cons c cs =>
    have hsp : isSpace c = false := h c rfl
    rw [splitAux_cons, splitAux_cons, hsp]
    simp

theorem splitAux_frag_step : ∀ (s acc tail : List Char),
    List.Chain' fragR (acc.reverse ++ s) → EndsTerm (acc.reverse ++ s) →
    splitAux false acc (s ++ ' ' :: tail) =
      (acc.reverse ++ s) :: splitAux true [] tail := by
  intro s
  induction s with
  | nil =>
    intro acc tail _ hterm
    rw [List.nil_append, splitAux_cons]
    obtain ⟨d, hd, hdt⟩ := hterm
    rw [List.append_nil] at hd
    rw [List.getLast?_reverse] at hd
    have hcond : (isSpace ' ' && isTermOpt acc.head?) = true := by
      rw [hd]
      show (true && isTerm d) = true
      rw [hdt]
      rfl
    rw [if_neg (by simp), if_pos hcond, List.append_nil]
  | cons c s' ih =>
    intro acc tail hc hterm
    rw [List.cons_append, splitAux_cons]
    have hb : ∀ x ∈ acc.reverse.getLast?, ∀ y ∈ (c :: s').head?, fragR x y := by
      have := (List.chain'_append.mp hc).2.2
      intro x hx y hy
      exact this x hx y hy
    have h2 : ¬(isSpace c && isTermOpt acc.head?) = true := by
      intro h
      rcases band_true_iff.mp h with ⟨hsp, hterm'⟩
      cases hacc : acc.head? with
      | none => rw [hacc] at hterm'; cases hterm'
      | some a =>
        rw [hacc] at hterm'
        have := hb a (by rw [List.getLast?_reverse, hacc]; rfl) c rfl hterm'
        rw [hsp] at this
        cases this
    rw [if_neg (by simp), if_neg h2]
    have harr : (c :: acc).reverse ++ s' = acc.reverse ++ c :: s' := by
      rw [List.reverse_cons, List.append_assoc]
      rfl
    rw [ih (c :: acc) tail (by rw [harr]; exact hc) (by rw [harr]; exact hterm), harr]

/-! ## Joining selected sentences and splitting back -/

theorem joinSpace_cons2 (s a : List Char) (rest : List (List Char)) :
    joinSpace (s :: a :: rest) = s ++ ' ' :: joinSpace (a :: rest) := rfl

theorem joinSpace_ne_nil {s : List Char} (rest : List (List Char)) (hs : s ≠ []) :
    joinSpace (s :: rest) ≠ [] := by
  cases rest with
  | nil => exact hs
  | cons a t =>
    rw [joinSpace_cons2]
    cases s with
    | nil => exact absurd rfl hs
    | cons x xs => simp

theorem joinSpace_head? {s : List Char} (rest : List (List Char)) (hs : s ≠ []) :
    (joinSpace (s :: rest)).head? = s.head? := by
  cases rest with
  | nil => rfl
  | cons a t =>
    rw [joinSpace_cons2, List.head?_append]
    cases s with
    | nil => exact absurd rfl hs
    | cons x xs => rfl

theorem joinSpace_getLast? : ∀ (ss : List (List Char)) (t : List Char),
    ss.getLast? = some t → (∀ x ∈ ss, x ≠ []) →
    (joinSpace ss).getLast? = t.getLast? := by
  intro ss
  induction ss with
  | nil => intro t ht _; cases ht
  | cons s rest ih =>
    intro t ht hne
    cases rest with
    | nil =>
      rw [List.getLast?_singleton] at ht
      cases ht
      rfl
    | cons a r =>
      rw [List.getLast?_cons_cons] at ht
      rw [joinSpace_cons2]
      have hjoin : joinSpace (a :: r) ≠ [] :=
        joinSpace_ne_nil r (hne a (by simp))
      rw [getLast?_append_right (by simp), getLast?_cons_of_ne_nil ' ' hjoin]
      exact ih t ht (fun x hx => hne x (List.mem_cons_of_mem s hx))

theorem splitAux_of_join : ∀ (ss : List (List Char)), ss ≠ [] →
    (∀ s ∈ ss, s ≠ [] ∧ strip s = s ∧ List.Chain' fragR s) →
    (∀ s ∈ ss.dropLast, EndsTerm s) →
    splitAux false [] (joinSpace ss) = ss := by
  intro ss
  induction ss with
  | nil => intro h; exact absurd rfl h
  | cons s rest ih =>
    intro _ hinv hterm
    obtain ⟨hne, hstrip, hchain⟩ := hinv s (by simp)
    cases rest with
    | nil =>
      show splitAux false [] (joinSpace [s]) = [s]
      have : joinSpace [s] = s := rfl
      rw [this]
      have := splitAux_no_split s [] (by simpa using hchain)
      simpa using this
    | cons a r =>
      rw [joinSpace_cons2]
      have hsterm : EndsTerm s := by
        apply hterm
        rw [List.dropLast_cons_of_ne_nil (by simp : a :: r ≠ [])]
        simp
      rw [splitAux_frag_step s [] (joinSpace (a :: r)) (by simpa using hchain)
        (by simpa using hsterm)]
      obtain ⟨hanil, hastrip, _⟩ := hinv a (by simp)
      have hhead : ∀ c, (joinSpace (a :: r)).head? = some c → isSpace c = false := by
        intro c hc
        rw [joinSpace_head? r hanil] at hc
        apply strip_head?_not
        rw [hastrip]
        exact hc
      rw [splitAux_skip_head hhead]
      have hds : ∀ x ∈ (a :: r).dropLast, EndsTerm x := by
        intro x hx
        apply hterm
        rw [List.dropLast_cons_of_ne_nil (by simp : a :: r ≠ [])]
        exact List.mem_cons_of_mem s hx
      rw [ih (by simp) (fun x hx => hinv x (List.mem_cons_of_mem s hx)) hds]
      simp

theorem sentSplit_of_join (ss : List (List Char)) (hss : ss ≠ [])
    (hinv : ∀ s ∈ ss, s ≠ [] ∧ strip s = s ∧ List.Chain' fragR s)
    (hterm : ∀ s ∈ ss.dropLast, EndsTerm s) :
    sentSplitCore (joinSpace ss) = ss := by
  obtain ⟨s, rest, rfl⟩ := List.exists_cons_of_ne_nil hss
  obtain ⟨hne, hstrip, _⟩ := hinv s (by simp)
  have hstripj : strip (joinSpace (s :: rest)) = joinSpace (s :: rest) := by
    apply strip_eq_self_of
    · intro c hc
      rw [joinSpace_head? rest hne] at hc
      apply strip_head?_not
      rw [hstrip]
      exact hc
    · intro c hc
      cases hg : (s :: rest).getLast? with
      | none => exact absurd (List.getLast?_eq_none_iff.mp hg) (by simp)
      | some t =>
        have htmem : t ∈ s :: rest := List.mem_of_mem_getLast? (by rw [hg]; rfl)
        obtain ⟨htne, htstrip, _⟩ := hinv t htmem
        rw [joinSpace_getLast? (s :: rest) t hg
          (fun x hx => (hinv x hx).1)] at hc
        apply strip_getLast?_not
        rw [htstrip]
        exact hc
  unfold sentSplitCore
  rw [hstripj, splitAux_of_join (s :: rest) (by simp) hinv hterm]
  have hmap : (s :: rest).map strip = s :: rest := by
    rw [List.map_congr_left (fun x hx => (hinv x hx).2.1)]
    exact List.map_id _
  rw [hmap]
  rw [List.filter_eq_self.mpr]
  intro x hx
  have := (hinv x hx).1
  simp [List.isEmpty_iff, this]

/-! ## Invariants of the sentence splitter's output -/

theorem chain'_rstripP {R : Char → Char → Prop} {p : Char → Bool} :
    ∀ l : List Char, List.Chain' R l → List.Chain' R (rstripP p l) := by
  intro l
  induction l with
  | nil => intro _; exact List.chain'_nil
  | cons c cs ih =>
    intro h
    obtain ⟨hR, hcs⟩ := List.chain'_cons'.mp h
    rw [rstripP_cons]
    by_cases hcond : ((rstripP p cs).isEmpty && p c) = true
    · rw [if_pos hcond]; exact List.chain'_nil
    · rw [if_neg hcond]
      refine List.chain'_cons'.mpr ⟨?_, ih hcs⟩
      intro y hy
      rcases rstripP_head? p cs with h0 | h0
      · rw [h0] at hy; cases hy
      · rw [h0] at hy
        exact hR y hy

theorem chain'_strip {l : List Char} (h : List.Chain' fragR l) :
    List.Chain' fragR (strip l) := by
  unfold strip rstrip
  exact chain'_rstripP (lstrip l) (h.suffix (List.dropWhile_suffix isSpace))

theorem sentSplit_mem {t : List Char} {s : List Char} (h : s ∈ sentSplitCore t) :
    s ≠ [] ∧ strip s = s ∧ List.Chain' fragR s := by
  unfold sentSplitCore at h
  obtain ⟨hmem, hne⟩ := List.mem_filter.mp h
  obtain ⟨f, hf, rfl⟩ := List.mem_map.mp hmem
  refine ⟨?_, strip_idem f, ?_⟩
  · intro h0
    rw [h0] at hne
    cases hne
  · exact chain'_strip (splitAux_chain (strip t) false [] List.chain'_nil f hf)

theorem sentSplit_eq_of_ne_nil {t : List Char} (h : strip t ≠ []) :
    sentSplitCore t = (splitAux false [] (strip t)).map strip := by
  unfold sentSplitCore
  rw [List.filter_eq_self.mpr]
  intro x hx
  obtain ⟨f, hf, rfl⟩ := List.mem_map.mp hx
  cases hg : (strip t).getLast? with
  | none => exact absurd (List.getLast?_eq_none_iff.mp hg) h
  | some c₀ =>
    have hns : isSpace c₀ = false := strip_getLast?_not hg
    obtain ⟨d, hd, hdns⟩ :=
      splitAux_last_ne (strip t) false [] c₀ (by simpa using hg) hns f hf
    have hlast := strip_getLast?_of_not_space hd hdns
    have hne2 : strip f ≠ [] := by
      intro hemp
      rw [hemp] at hlast
      simp at hlast
    simp [List.isEmpty_iff, hne2]

theorem sentSplit_dropLast {t : List Char} {s : List Char}
    (h : s ∈ (sentSplitCore t).dropLast) : EndsTerm s := by
  by_cases hnil : strip t = []
  · have : sentSplitCore t = [] := by
      unfold sentSplitCore
      rw [hnil]
      rfl
    rw [this] at h
    simp at h
  · rw [sentSplit_eq_of_ne_nil hnil] at h
    rw [← List.map_dropLast] at h
    obtain ⟨f, hf, rfl⟩ := List.mem_map.mp h
    obtain ⟨d, hd, hdt⟩ := splitAux_dropLast_term (strip t) false [] f hf
    exact ⟨d, strip_getLast?_of_not_space hd (isTerm_not_space hdt), hdt⟩

theorem sublist_dropLast_mem {α : Type} :
    ∀ {l₁ l₂ : List α}, l₁ <+ l₂ → ∀ x ∈ l₁.dropLast, x ∈ l₂.dropLast := by
  intro l₁ l₂ hsub
  induction hsub with
  | slnil => intro x hx; exact hx
  | @cons ll₁ ll₂ a hs ih =>
    intro x hx
    have hmem := ih x hx
    cases ll₂ with
    | nil => simp at hmem
    | cons b bs =>
      rw [List.dropLast_cons_of_ne_nil (by simp)]
      exact List.mem_cons_of_mem a hmem
  | @cons₂ ll₁ ll₂ a hs ih =>
    intro x hx
    cases hl₁ : ll₁ with
    | nil =>
      rw [hl₁] at hx
      simp at hx
    | cons c cs =>
      subst hl₁
      rw [List.dropLast_cons_of_ne_nil (by simp)] at hx
      have hll₂ : ll₂ ≠ [] := by
        intro h0
        subst h0
        simp at hs
      rw [List.dropLast_cons_of_ne_nil hll₂]
      rcases List.mem_cons.mp hx with rfl | hx2
      · exact List.mem_cons_self _ _
      · exact List.mem_cons_of_mem a (ih x hx2)

theorem sentSplit_join_sublist {t : List Char} {ss : List (List Char)}
    (h : ss <+ sentSplitCore t) : sentSplitCore (joinSpace ss) = ss := by
  cases hss : ss with
  | nil => rfl
  | cons s rest =>
    rw [← hss]
    apply sentSplit_of_join ss (by rw [hss]; simp)
    · intro x hx
      exact sentSplit_mem (h.subset hx)
    · intro x hx
      exact sentSplit_dropLast (sublist_dropLast_mem h x hx)

/-! ## The pattern scan of `_qa_from_sentence` -/

theorem reSearchAux_nil (vs : List (List Char)) (acc : List Char) :
    reSearchAux vs acc [] = none := rfl

theorem reSearchAux_cons (vs : List (List Char)) (acc : List Char) (c : Char)
    (cs : List Char) :
    reSearchAux vs acc (c :: cs) =
      if isSpace c = true then
        match matchVerb vs (cs.dropWhile isSpace) with
        | some after => some (acc.reverse, after)
        | none => if c = '\n' then none else reSearchAux vs (c :: acc) cs
      else reSearchAux vs (c :: acc) cs := rfl

theorem hitB_cons (vs : List (List Char)) (c : Char) (cs : List Char) :
    hitB vs (c :: cs) = (isSpace c && (matchVerb vs (cs.dropWhile isSpace)).isSome) := rfl

theorem verbCheck_of_eq {v : List Char} {w : List Char} {c : Char} {rest : List Char}
    (hmap : v.map pyLower = w) (hc : isSpace c = true) :
    verbCheck (v ++ c :: rest) w = true := by
  have hlen : w.length = v.length := by rw [← hmap, List.length_map]
  unfold verbCheck
  rw [hlen, List.take_append_of_le_length (Nat.le_refl _), List.take_length,
    List.drop_append_of_le_length (Nat.le_refl _), List.drop_length, hmap]
  simp [hc]

theorem verbCheck_false_of_take_ne {t : List Char} {w : List Char}
    (h : (t.take w.length).map pyLower ≠ w) : verbCheck t w = false := by
  unfold verbCheck
  rw [decide_eq_false h]
  rfl

theorem matchVerb_copula {v : List Char} {c : Char} {rest : List Char}
    (hv : v.map pyLower ∈ copulaVerbs) (hc : isSpace c = true) :
    matchVerb copulaVerbs (v ++ c :: rest) = some (c :: rest) := by
  have hxdrop : ∀ n, n = v.length → (v ++ c :: rest).drop n = c :: rest := by
    intro n hn
    rw [hn, List.drop_append_of_le_length (Nat.le_refl _), List.drop_length]
    rfl
  have htk : ∀ n, n ≤ v.length →
      ((v ++ c :: rest).take n).map pyLower = (v.map pyLower).take n := by
    intro n hn
    rw [List.take_append_of_le_length hn, List.map_take]
  rcases List.mem_cons.mp hv with h1 | hv
  · -- v lowercases to "is"
    have hlen : v.length = 2 := by
      have := congrArg List.length h1
      simpa using this
    unfold matchVerb copulaVerbs
    rw [List.find?_cons_of_pos _ (verbCheck_of_eq h1 hc)]
    exact congrArg some (hxdrop 2 hlen.symm)
  rcases List.mem_cons.mp hv with h1 | hv
  · -- v lowercases to "are"
    have hlen : v.length = 3 := by
      have := congrArg List.length h1
      simpa using this
    have hfail : verbCheck (v ++ c :: rest) ['i', 's'] = false := by
      apply verbCheck_false_of_take_ne
      rw [show (['i', 's'] : List Char).length = 2 from rfl, htk 2 (by omega), h1]
      decide
    unfold matchVerb copulaVerbs
    rw [List.find?_cons_of_neg _ (by rw [hfail]; exact Bool.false_ne_true),
      List.find?_cons_of_pos _ (verbCheck_of_eq h1 hc)]
    exact congrArg some (hxdrop 3 hlen.symm)
  rcases List.mem_cons.mp hv with h1 | hv
  · -- v lowercases to "was"
    have hlen : v.length = 3 := by
      have := congrArg List.length h1
      simpa using this
    have hfail1 : verbCheck (v ++ c :: rest) ['i', 's'] = false := by
      apply verbCheck_false_of_take_ne
      rw [show (['i', 's'] : List Char).length = 2 from rfl, htk 2 (by omega), h1]
      decide
    have hfail2 : verbCheck (v ++ c :: rest) ['a', 'r', 'e'] = false := by
      apply verbCheck_false_of_take_ne
      rw [show (['a', 'r', 'e'] : List Char).length = 3 from rfl, htk 3 (by omega), h1]
      decide
    unfold matchVerb copulaVerbs
    rw [List.find?_cons_of_neg _ (by rw [hfail1]; exact Bool.false_ne_true),
      List.find?_cons_of_neg _ (by rw [hfail2]; exact Bool.false_ne_true),
      List.find?_cons_of_pos _ (verbCheck_of_eq h1 hc)]
    exact congrArg some (hxdrop 3 hlen.symm)
  rcases List.mem_cons.mp hv with h1 | hv
  · -- v lowercases to "were"
    have hlen : v.length = 4 := by
      have := congrArg List.length h1
      simpa using this
    have hfail1 : verbCheck (v ++ c :: rest) ['i', 's'] = false := by
      apply verbCheck_false_of_take_ne
      rw [show (['i', 's'] : List Char).length = 2 from rfl, htk 2 (by omega), h1]
      decide
    have hfail2 : verbCheck (v ++ c :: rest) ['a', 'r', 'e'] = false := by
      apply verbCheck_false_of_take_ne
      rw [show (['a', 'r', 'e'] : List Char).length = 3 from rfl, htk 3 (by omega), h1]
      decide
    have hfail3 : verbCheck (v ++ c :: rest) ['w', 'a', 's'] = false := by
      apply verbCheck_false_of_take_ne
      rw [show (['w', 'a', 's'] : List Char).length = 3 from rfl, htk 3 (by omega), h1]
      decide
    unfold matchVerb copulaVerbs
    rw [List.find?_cons_of_neg _ (by rw [hfail1]; exact Bool.false_ne_true),
      List.find?_cons_of_neg _ (by rw [hfail2]; exact Bool.false_ne_true),
      List.find?_cons_of_neg _ (by rw [hfail3]; exact Bool.false_ne_true),
      List.find?_cons_of_pos _ (verbCheck_of_eq h1 hc)]
    exact congrArg some (hxdrop 4 hlen.symm)
  cases hv

theorem head_not_space_of_pyLower {a h : Char} (hl : pyLower a = h)
    (hns : isSpace h = false) : isSpace a = false := by
  cases hsp : isSpace a with
  | false => rfl
  | true =>
    exfalso
    rw [pyLower_of_space hsp] at hl
    subst hl
    rw [hsp] at hns
    cases hns

theorem copula_head_not_space {v : List Char} (hv : v.map pyLower ∈ copulaVerbs) :
    ∃ a t, v = a :: t ∧ isSpace a = false := by
  cases v with
  | nil => simp [copulaVerbs] at hv
  | cons a t =>
    refine ⟨a, t, rfl, ?_⟩
    rw [List.map_cons] at hv
    rcases List.mem_cons.mp hv with h1 | hv'
    · exact head_not_space_of_pyLower (List.cons.injEq .. ▸ h1).1 (by decide)
    rcases List.mem_cons.mp hv' with h1 | hv'
    · exact head_not_space_of_pyLower (List.cons.injEq .. ▸ h1).1 (by decide)
    rcases List.mem_cons.mp hv' with h1 | hv'
    · exact head_not_space_of_pyLower (List.cons.injEq .. ▸ h1).1 (by decide)
    rcases List.mem_cons.mp hv' with h1 | hv'
    · exact head_not_space_of_pyLower (List.cons.injEq .. ▸ h1).1 (by decide)
    cases hv'

theorem reSearchAux_skip (vs : List (List Char)) :
    ∀ (s₁ s₂ acc : List Char),
      (∀ b, b <:+ s₁ → b ≠ [] → hitB vs (b ++ s₂) = false) →
      (∀ x ∈ s₁, x ≠ '\n') →
      reSearchAux vs acc (s₁ ++ s₂) = reSearchAux vs (s₁.reverse ++ acc) s₂ := by
  intro s₁
  induction s₁ with
  | nil => intro s₂ acc _ _; rfl
  | cons c s₁' ih =>
    intro s₂ acc hhit hnl
    rw [List.cons_append, reSearchAux_cons]
    have hnext : reSearchAux vs (c :: acc) (s₁' ++ s₂) =
        reSearchAux vs ((c :: s₁').reverse ++ acc) s₂ := by
      rw [ih s₂ (c :: acc) ?_ (fun x hx => hnl x (List.mem_cons_of_mem c hx))]
      · rw [List.reverse_cons, List.append_assoc]
        rfl
      · intro b hsuf hbne
        apply hhit b ?_ hbne
        obtain ⟨u, hu⟩ := hsuf
        exact ⟨c :: u, by rw [← hu]; rfl⟩
    by_cases hsp : isSpace c = true
    · rw [if_pos hsp]
      have hhit0 := hhit (c :: s₁') ⟨[], rfl⟩ (by simp)
      rw [List.cons_append, hitB_cons, hsp, Bool.true_and] at hhit0
      have hmv : matchVerb vs ((s₁' ++ s₂).dropWhile isSpace) = none :=
        Option.not_isSome_iff_eq_none.mp (by rw [hhit0]; exact Bool.false_ne_true)
      rw [hmv]
      rw [if_neg (hnl c (List.mem_cons_self c s₁'))]
      exact hnext
    · rw [if_neg hsp]
      exact hnext

theorem reSearchAux_found (vs : List (List Char)) {ws v rest : List Char} {c : Char}
    (acc : List Char) (hws : ws ≠ []) (hsp : ∀ x ∈ ws, isSpace x = true)
    (hmv : matchVerb vs (v ++ c :: rest) = some (c :: rest))
    (hvhead : ∃ a t, v = a :: t ∧ isSpace a = false) :
    reSearchAux vs acc (ws ++ v ++ c :: rest) = some (acc.reverse, c :: rest) := by
  obtain ⟨w, ws', rfl⟩ := List.exists_cons_of_ne_nil hws
  obtain ⟨a, t, rfl, hans⟩ := hvhead
  rw [List.cons_append] at hmv
  have harr : (w :: ws') ++ (a :: t) ++ c :: rest =
      w :: (ws' ++ (a :: (t ++ c :: rest))) := by simp
  rw [harr, reSearchAux_cons, if_pos (hsp w (List.mem_cons_self w ws'))]
  have hdrop : (ws' ++ (a :: (t ++ c :: rest))).dropWhile isSpace =
      a :: (t ++ c :: rest) := by
    rw [List.dropWhile_append_of_pos (fun x hx => hsp x (List.mem_cons_of_mem w hx))]
    exact List.dropWhile_cons_of_neg (by rw [hans]; exact Bool.false_ne_true)
  rw [hdrop, hmv]

theorem noEarlierHit_iff {vs : List (List Char)} {pre tail : List Char} :
    noEarlierHit vs pre tail = true ↔
      ∀ b, b <:+ pre → b ≠ [] → hitB vs (b ++ tail) = false := by
  unfold noEarlierHit
  rw [List.all_eq_true]
  constructor
  · intro h b hsuf hbne
    have := h b ((List.mem_tails b pre).mpr hsuf)
    rcases Bool.or_eq_true _ _ ▸ this with h1 | h1
    · exact absurd (List.isEmpty_iff.mp h1) hbne
    · cases hh : hitB vs (b ++ tail) with
      | false => rfl
      | true => rw [hh] at h1; cases h1
  · intro h b hmem
    by_cases hbne : b = []
    · subst hbne; rfl
    · have := h b ((List.mem_tails b pre).mp hmem) hbne
      rw [Bool.or_eq_true]
      right
      rw [this]
      rfl

theorem matchVerb_sound {vs : List (List Char)} (hvs : ∀ w ∈ vs, w ≠ [])
    {t after : List Char} (h : matchVerb vs t = some after) :
    ∃ v c rest, t = v ++ c :: rest ∧ after = c :: rest ∧
      v.map pyLower ∈ vs ∧ v ≠ [] ∧ isSpace c = true := by
  unfold matchVerb at h
  cases hfind : vs.find? (verbCheck t) with
  | none => rw [hfind] at h; cases h
  | some w =>
    rw [hfind] at h
    cases h
    have hcheck := List.find?_some hfind
    have hmem := List.mem_of_find?_eq_some hfind
    unfold verbCheck at hcheck
    rcases band_true_iff.mp hcheck with ⟨htake, hdropm⟩
    have htake' : (t.take w.length).map pyLower = w := of_decide_eq_true htake
    cases hdrop : t.drop w.length with
    | nil => rw [hdrop] at hdropm; cases hdropm
    | cons c rest =>
      rw [hdrop] at hdropm
      refine ⟨t.take w.length, c, rest, ?_, rfl, by rw [htake']; exact hmem,
        ?_, hdropm⟩
      · rw [← hdrop, List.take_append_drop]
      · intro h0
        rw [h0] at htake'
        exact hvs w hmem (by rw [← htake']; rfl)

theorem reSearchAux_sound {vs : List (List Char)} (hvs : ∀ w ∈ vs, w ≠ []) :
    ∀ (l acc g1 after : List Char), reSearchAux vs acc l = some (g1, after) →
      ∃ s₁ ws v c rest, l = s₁ ++ ws ++ v ++ c :: rest ∧ g1 = acc.reverse ++ s₁ ∧
        ws ≠ [] ∧ (∀ x ∈ ws, isSpace x = true) ∧ v.map pyLower ∈ vs ∧ v ≠ [] ∧
        isSpace c = true ∧ after = c :: rest := by
  intro l
  induction l with
  | nil => intro acc g1 after h; cases h
  | cons c₀ cs ih =>
    intro acc g1 after h
    rw [reSearchAux_cons] at h
    have hrec : reSearchAux vs (c₀ :: acc) cs = some (g1, after) →
        ∃ s₁ ws v c rest, c₀ :: cs = s₁ ++ ws ++ v ++ c :: rest ∧
          g1 = acc.reverse ++ s₁ ∧ ws ≠ [] ∧ (∀ x ∈ ws, isSpace x = true) ∧
          v.map pyLower ∈ vs ∧ v ≠ [] ∧ isSpace c = true ∧ after = c :: rest := by
      intro hr
      obtain ⟨s₁, ws, v, c, rest, hdec, hg1, hwsne, hwssp, hvmem, hvne, hcsp, haf⟩ :=
        ih (c₀ :: acc) g1 after hr
      refine ⟨c₀ :: s₁, ws, v, c, rest, by rw [hdec]; rfl, ?_, hwsne, hwssp, hvmem,
        hvne, hcsp, haf⟩
      rw [hg1, List.reverse_cons, List.append_assoc]
      rfl
    by_cases hsp : isSpace c₀ = true
    · rw [if_pos hsp] at h
      cases hmv : matchVerb vs (cs.dropWhile isSpace) with
      | some af =>
        rw [hmv] at h
        cases h
        obtain ⟨v, c, rest, hdec, haf, hvmem, hvne, hcsp⟩ := matchVerb_sound hvs hmv
        refine ⟨[], c₀ :: cs.takeWhile isSpace, v, c, rest, ?_, by simp, by simp,
          ?_, hvmem, hvne, hcsp, haf⟩
        · have hcs : cs = cs.takeWhile isSpace ++ (v ++ c :: rest) := by
            rw [← hdec, List.takeWhile_append_dropWhile]
          conv_lhs => rw [hcs]
          simp
        · intro x hx
          rcases List.mem_cons.mp hx with rfl | hx
          · exact hsp
          · exact List.mem_takeWhile_imp hx
      | none =>
        rw [hmv] at h
        by_cases hnl : c₀ = '\n'
        · rw [if_pos hnl] at h; cases h
        · rw [if_neg hnl] at h
          exact hrec h
    · rw [if_neg hsp] at h
      exact hrec h

theorem reSearch_sound {vs : List (List Char)} (hvs : ∀ w ∈ vs, w ≠ [])
    {s g1 after : List Char} (h : reSearch vs (strip s) = some (g1, after)) :
    g1 ≠ [] ∧ ∃ ws v c rest, strip s = g1 ++ ws ++ v ++ c :: rest ∧
      ws ≠ [] ∧ (∀ x ∈ ws, isSpace x = true) ∧ v.map pyLower ∈ vs ∧ v ≠ [] ∧
      isSpace c = true ∧ after = c :: rest := by
  obtain ⟨s₁, ws, v, c, rest, hdec, hg1, hwsne, hwssp, hvmem, hvne, hcsp, haf⟩ :=
    reSearchAux_sound hvs (strip s) [] g1 after h
  rw [List.reverse_nil, List.nil_append] at hg1
  subst hg1
  constructor
  · intro h0
    subst h0
    obtain ⟨w, ws', rfl⟩ := List.exists_cons_of_ne_nil hwsne
    have hh : (strip s).head? = some w := by
      rw [hdec]
      rfl
    have h1 := strip_head?_not hh
    have h2 := hwssp w (List.mem_cons_self w ws')
    rw [h1] at h2
    cases h2
  · exact ⟨ws, v, c, rest, hdec, hwsne, hwssp, hvmem, hvne, hcsp, haf⟩

theorem qaCore_rule1 {sentence : List Char} {g1 after : List Char}
    (h : reSearch copulaVerbs (strip sentence) = some (g1, after)) :
    qaCore sentence = ("What is ".data ++ strip g1 ++ ['?'],
      rstripP isTerm (strip (lastGroup after))) := by
  unfold qaCore
  rw [h]

theorem reSearch_fires (vs : List (List Char)) {s pre ws v rest : List Char} {c : Char}
    (hdec : strip s = pre ++ ws ++ v ++ c :: rest)
    (hnl : ∀ x ∈ pre, x ≠ '\n')
    (hws : ws ≠ []) (hwsSp : ∀ x ∈ ws, isSpace x = true)
    (hmv : matchVerb vs (v ++ c :: rest) = some (c :: rest))
    (hvhead : ∃ a t, v = a :: t ∧ isSpace a = false)
    (hmin : noEarlierHit vs pre (ws ++ v ++ c :: rest) = true) :
    reSearch vs (strip s) = some (pre, c :: rest) := by
  rw [hdec]
  unfold reSearch
  rw [show pre ++ ws ++ v ++ c :: rest = pre ++ (ws ++ v ++ c :: rest) by simp]
  rw [reSearchAux_skip vs pre (ws ++ v ++ c :: rest) [] (noEarlierHit_iff.mp hmin) hnl]
  rw [List.append_nil]
  rw [reSearchAux_found vs pre.reverse hws hwsSp hmv hvhead]
  rw [List.reverse_reverse]

theorem summarize_resplit (t : List Char) (k : Nat) :
    sentSplitCore (summarizeCore t k) <+ sentSplitCore t ∧
    (sentSplitCore (summarizeCore t k)).length ≤ k := by
  by_cases hemp : (sentSplitCore t).isEmpty = true
  · have hout : summarizeCore t k = [] := by
      unfold summarizeCore
      rw [if_pos hemp]
    rw [hout, sentSplitCore_nil]
    exact ⟨List.nil_sublist _, by simp⟩
  · by_cases hfast : (sentSplitCore t).length ≤ k
    · have hout : summarizeCore t k = joinSpace (sentSplitCore t) :=
        summarizeCore_small hfast
      rw [hout, sentSplit_join_sublist (List.Sublist.refl _)]
      exact ⟨List.Sublist.refl _, hfast⟩
    · have hk2 : k < (sentSplitCore t).length := Nat.not_le.mp hfast
      have hout := summarizeCore_main hk2
      rw [hout, sentSplit_join_sublist (selIdx_map_sublist _ _)]
      refine ⟨selIdx_map_sublist _ _, ?_⟩
      rw [List.length_map, selIdx_length]
      exact Nat.min_le_left _ _

/-! ## The claims -/

set_option maxRecDepth 8000

/-- Claim C1 (corrected). As stated the claim is false: a sentence with no
non-stopword token never enters the `scores` dictionary, so when `K` exceeds
the number of scored sentences the summary holds fewer than `K` sentences
(see `claim_C1_cex`).  Amended claim: for every text whose sentence count
exceeds `K`, the summary consists of exactly `min K m` sentences, where `m` is
the number of sentences containing at least one non-stopword token
(`m = (scoresList sents).length`); the selected indices are strictly
increasing, so the chosen sentences are drawn verbatim from the input's
sentence sequence in original textual order with no sentence repeated, and
the summary is their space-join. -/
theorem claim_C1 (text : String) (k : Nat)
    (hk : k < (tokenize_sentences text).length) :
    (selIdx (sentSplitCore text.data) k).length
        = min k (scoresList (sentSplitCore text.data)).length ∧
    (selIdx (sentSplitCore text.data) k).Sorted (· < ·) ∧
    ((selIdx (sentSplitCore text.data) k).map
        (fun i => (sentSplitCore text.data).getD i [])) <+ sentSplitCore text.data ∧
    summarize text k = String.mk (joinSpace ((selIdx (sentSplitCore text.data) k).map
        (fun i => (sentSplitCore text.data).getD i []))) := by
  have hk' : k < (sentSplitCore text.data).length := by
    have : (tokenize_sentences text).length = (sentSplitCore text.data).length := by
      unfold tokenize_sentences
      rw [List.length_map]
    rw [this] at hk
    exact hk
  exact ⟨selIdx_length _ _, selIdx_sorted_lt _ _, selIdx_map_sublist _ _,
    congrArg String.mk (summarizeCore_main hk')⟩

/-- Counterexample to claim C1 as stated: `"The. The. The."` has three
sentences, `3 > 1`, yet `summarize` returns the empty string — zero sentences
rather than exactly one — because no sentence has a non-stopword token. -/
theorem claim_C1_cex :
    1 < (tokenize_sentences "The. The. The.").length ∧
    summarize "The. The. The." 1 = "" ∧
    tokenize_sentences (summarize "The. The. The." 1) = [] :=
  ⟨by decide, by decide, by decide⟩

theorem claim_C1_witness :
    2 < (tokenize_sentences
        "AI is useful. AI helps students. AI raises ethical questions. AI requires regulation.").length ∧
    ((selIdx (sentSplitCore
        "AI is useful. AI helps students. AI raises ethical questions. AI requires regulation.".data) 2).length
        = min 2 (scoresList (sentSplitCore
        "AI is useful. AI helps students. AI raises ethical questions. AI requires regulation.".data)).length ∧
    (selIdx (sentSplitCore
        "AI is useful. AI helps students. AI raises ethical questions. AI requires regulation.".data) 2).Sorted (· < ·) ∧
    ((selIdx (sentSplitCore
        "AI is useful. AI helps students. AI raises ethical questions. AI requires regulation.".data) 2).map
        (fun i => (sentSplitCore
        "AI is useful. AI helps students. AI raises ethical questions. AI requires regulation.".data).getD i []))
        <+ sentSplitCore
        "AI is useful. AI helps students. AI raises ethical questions. AI requires regulation.".data ∧
    summarize
        "AI is useful. AI helps students. AI raises ethical questions. AI requires regulation." 2
      = String.mk (joinSpace ((selIdx (sentSplitCore
        "AI is useful. AI helps students. AI raises ethical questions. AI requires regulation.".data) 2).map
        (fun i => (sentSplitCore
        "AI is useful. AI helps students. AI raises ethical questions. AI requires regulation.".data).getD i [])))) :=
  ⟨by decide,
    claim_C1
      "AI is useful. AI helps students. AI raises ethical questions. AI requires regulation."
      2 (by decide)⟩

/-- Claim C2 (corrected). As stated the claim is false: the first rule's
pattern `^(.*?)\s+(is|are|was|were)\s+(.*)` requires whitespace on both sides
of the verb, so a sentence such as `"X is."` — which contains the whole word
`is` with non-empty text before it — does not fire the copula rule
(see `claim_C2_cex`).  Amended claim: for every sentence whose stripped text
decomposes as `pre ++ ws ++ v ++ c :: rest` — non-empty, newline-free text
`pre`, then a non-empty whitespace run `ws`, then a copula verb `v`
(case-insensitive), then a whitespace character `c` — such that no strictly
earlier position is a match (`noEarlierHit`), the first rule fires on that
earliest occurrence and emits question `"What is <subject>?"` with subject the
trimmed text before the verb, and answer the text after the verb's whitespace
run up to the first newline, trimmed, with trailing `.!?` stripped; in
particular `"Paris is the capital of France."` yields question
`"What is Paris?"` and answer `"the capital of France"` (see
`claim_C2_witness`). -/
theorem claim_C2 (sent : String) (pre ws v rest : List Char) (c : Char)
    (hdec : strip sent.data = pre ++ ws ++ v ++ c :: rest)
    (hpre : pre ≠ [])
    (hnl : ∀ x ∈ pre, x ≠ '\n')
    (hws : ws ≠ []) (hwsSp : ∀ x ∈ ws, isSpace x = true)
    (hv : v.map pyLower ∈ copulaVerbs)
    (hc : isSpace c = true)
    (hmin : noEarlierHit copulaVerbs pre (ws ++ v ++ c :: rest) = true) :
    qa_from_sentence sent =
      (String.mk ("What is ".data ++ strip pre ++ ['?']),
       String.mk (rstripP isTerm (strip (lastGroup (c :: rest))))) := by
  have hfires := reSearch_fires copulaVerbs hdec hnl hws hwsSp
    (matchVerb_copula hv hc) (copula_head_not_space hv) hmin
  unfold qa_from_sentence
  rw [qaCore_rule1 hfires]
  rfl

/-- Counterexample to claim C2 as stated: `"X is."` contains the whole word
`is` (case-insensitive) with non-empty text before it, but the first rule
does not fire — the sentence falls through to the short-sentence fallback —
because no whitespace follows the verb. -/
theorem claim_C2_cex :
    qa_from_sentence "X is." = ("Question: X is....", "X is.") ∧
    (qa_from_sentence "X is.").1 ≠ "What is X?" :=
  ⟨by decide, by decide⟩

theorem claim_C2_witness :
    qa_from_sentence "Paris is the capital of France." =
      ("What is Paris?", "the capital of France") := by
  have h := claim_C2 "Paris is the capital of France."
    "Paris".data [' '] "is".data "the capital of France.".data ' '
    (by decide) (by decide) (by decide) (by decide) (by decide) (by decide)
    (by decide) (by decide)
  exact h.trans (by decide)

/-- Claim C3 (confirmed): for every text and positive cap `C`,
`generate_flashcards` returns exactly `min (sentence count) C` cards, one per
sentence, in original sentence order — the cards are precisely the
question/answer pairs of the first `C` sentences. -/
theorem claim_C3 (text : String) (C : Nat) (hC : 0 < C) :
    (generate_flashcards text C).length = min (tokenize_sentences text).length C ∧
    generate_flashcards text C = ((sentSplitCore text.data).take C).map
      (fun s => (String.mk (qaCore s).1, String.mk (qaCore s).2)) := by
  constructor
  · rw [generate_flashcards_length hC]
    unfold tokenize_sentences
    rw [List.length_map]
  · exact generate_flashcards_eq hC text

theorem claim_C3_witness :
    0 < 2 ∧
    ((generate_flashcards "A. B. C." 2).length
        = min (tokenize_sentences "A. B. C.").length 2 ∧
      generate_flashcards "A. B. C." 2 = ((sentSplitCore "A. B. C.".data).take 2).map
        (fun s => (String.mk (qaCore s).1, String.mk (qaCore s).2))) :=
  ⟨by decide, claim_C3 "A. B. C." 2 (by decide)⟩

/-- Claim C4 (confirmed): for every text and positive `max_sentences`,
splitting the output of `summarize` back into sentences yields a subsequence
(in original order) of the input's sentence sequence, of length at most
`max_sentences`; no synthesized sentence ever appears. -/
theorem claim_C4 (text : String) (k : Nat) (hk : 0 < k) :
    tokenize_sentences (summarize text k) <+ tokenize_sentences text ∧
    (tokenize_sentences (summarize text k)).length ≤ k := by
  have h := summarize_resplit text.data k
  constructor
  · exact h.1.map String.mk
  · show ((sentSplitCore (summarizeCore text.data k)).map String.mk).length ≤ k
    rw [List.length_map]
    exact h.2

theorem claim_C4_witness :
    0 < 1 ∧
    (tokenize_sentences (summarize "a cat. b dog. c bird." 1)
        <+ tokenize_sentences "a cat. b dog. c bird." ∧
      (tokenize_sentences (summarize "a cat. b dog. c bird." 1)).length ≤ 1) :=
  ⟨by decide, claim_C4 "a cat. b dog. c bird." 1 (by decide)⟩

/-- Claim C5 (confirmed): whenever the sentence count is at most `K`,
`summarize` returns all of the text's sentences rejoined with single spaces,
in original order, verbatim — the frequency-scoring path is never taken. -/
theorem claim_C5 (text : String) (k : Nat)
    (h : (tokenize_sentences text).length ≤ k) :
    summarize text k = String.mk (joinSpace (sentSplitCore text.data)) := by
  have h' : (sentSplitCore text.data).length ≤ k := by
    have : (tokenize_sentences text).length = (sentSplitCore text.data).length := by
      unfold tokenize_sentences
      rw [List.length_map]
    rw [this] at h
    exact h
  exact congrArg String.mk (summarizeCore_small h')

theorem claim_C5_witness :
    (tokenize_sentences "Hello there. Bye now.").length ≤ 3 ∧
    summarize "Hello there. Bye now." 3 =
      String.mk (joinSpace (sentSplitCore "Hello there. Bye now.".data)) :=
  ⟨by decide, claim_C5 "Hello there. Bye now." 3 (by decide)⟩

/-- Claim C6 (confirmed): both operations are total Lean functions by
construction (they return for every string and numeric argument), and on
empty or whitespace-only input they degrade to the empty summary and the
empty card list. -/
theorem claim_C6 (s : String) (k C : Nat) (hsp : ∀ c ∈ s.data, isSpace c = true) :
    summarize s k = "" ∧ generate_flashcards s C = [] := by
  constructor
  · show String.mk (summarizeCore s.data k) = ""
    rw [summarizeCore_space hsp]
  · unfold generate_flashcards
    rw [fcCore_space hsp]
    rfl

theorem claim_C6_witness :
    (∀ c ∈ "   ".data, isSpace c = true) ∧
    (summarize "   " 5 = "" ∧ generate_flashcards "   " 7 = []) :=
  ⟨by decide, claim_C6 "   " 5 7 (by decide)⟩

/-- Claim C7 (confirmed): `summarize`, `generate_flashcards` and the sentence
splitter are deterministic — two calls with equal text and equal numeric
arguments return equal results; the embedding is a pure function with no
randomness or run-dependent state. -/
theorem claim_C7 (t₁ t₂ : String) (k₁ k₂ c₁ c₂ : Nat)
    (ht : t₁ = t₂) (hk : k₁ = k₂) (hc : c₁ = c₂) :
    summarize t₁ k₁ = summarize t₂ k₂ ∧
    generate_flashcards t₁ c₁ = generate_flashcards t₂ c₂ ∧
    tokenize_sentences t₁ = tokenize_sentences t₂ := by
  subst ht
  subst hk
  subst hc
  exact ⟨rfl, rfl, rfl⟩

theorem claim_C7_witness :
    summarize "x is y." 3 = summarize "x is y." 3 ∧
    generate_flashcards "x is y." 10 = generate_flashcards "x is y." 10 ∧
    tokenize_sentences "x is y." = tokenize_sentences "x is y." :=
  claim_C7 "x is y." "x is y." 3 3 10 10 rfl rfl rfl

/-- Claim C8 (confirmed): the word normalizer maps a sentence to its
alphanumeric/underscore runs, each lowercased, in left-to-right order with
duplicates retained, dropping every token in the stopword set (lowercasing
the sentence first, as the code does, equals extracting the runs first and
lowercasing each, since lowercasing preserves word characters); in particular
the token sequence of `"The the THE and AND"` is empty. -/
theorem claim_C8 :
    (∀ s : String, tokenize_words s.data =
      ((wordRuns s.data).map (List.map pyLower)).filter
        (fun w => !(STOPWORDS.contains w))) ∧
    tokenize_words "The the THE and AND".data = [] :=
  ⟨fun s => tokenize_words_spec s.data, by decide⟩

/-- Claim C9 (confirmed): `summarize(text, 0)` is the empty string for every
text — the fast path is never taken for non-empty input and the selection of
the top zero ranked indices is empty. -/
theorem claim_C9 (text : String) : summarize text 0 = "" := by
  show String.mk (summarizeCore text.data 0) = ""
  rw [summarizeCore_zero]

/-- Claim C10 (confirmed): the copula and possession rules fire only when the
pattern scan succeeds, and whenever it succeeds the stripped sentence
decomposes as non-empty text, then a non-empty whitespace run, then the verb,
then a whitespace character — i.e. the verb occurs with whitespace on both
sides and non-empty text before it.  A sentence beginning with the verb
(`"Is AI useful?"`) or ending with it (`"There he was."`) therefore falls
through to the short-sentence fallback, as the two concrete conjuncts show. -/
theorem claim_C10 :
    (∀ (s g1 after : List Char), reSearch copulaVerbs (strip s) = some (g1, after) →
      g1 ≠ [] ∧ ∃ ws v c rest, strip s = g1 ++ ws ++ v ++ c :: rest ∧ ws ≠ [] ∧
        (∀ x ∈ ws, isSpace x = true) ∧ v.map pyLower ∈ copulaVerbs ∧ v ≠ [] ∧
        isSpace c = true ∧ after = c :: rest) ∧
    (∀ (s g1 after : List Char), reSearch hasVerbs (strip s) = some (g1, after) →
      g1 ≠ [] ∧ ∃ ws v c rest, strip s = g1 ++ ws ++ v ++ c :: rest ∧ ws ≠ [] ∧
        (∀ x ∈ ws, isSpace x = true) ∧ v.map pyLower ∈ hasVerbs ∧ v ≠ [] ∧
        isSpace c = true ∧ after = c :: rest) ∧
    qa_from_sentence "Is AI useful?" = ("Question: Is AI useful?...", "Is AI useful?") ∧
    qa_from_sentence "There he was." = ("Question: There he was....", "There he was.") :=
  ⟨fun _ _ _ h => reSearch_sound (by decide) h,
   fun _ _ _ h => reSearch_sound (by decide) h,
   by decide, by decide⟩

end SmartStudy
